import Mathlib

/-!
# errstack: stack-trace errors

A verification development for the Go package `errstack` (file `stackerror.go`).

Modelling conventions.

* A Go `[]byte` and a Go `string` are both a `List Byte`; a byte is a natural
  number (the values a Go byte takes are those below 256, and nothing below
  depends on the bound).  The byte `'\n'` is `10`.
* A Go `int` is an `Int`.  Every integer the code computes lies between `-1`
  and `len(str)`, so no machine arithmetic wraps.
* A panic is the `Except.error` result, carrying the panic message.
* Pointers to `ErrorStackTrace` are addresses into an explicit heap; address
  `0` is the nil pointer.  `New` threads the heap through.
* `runtime.Stack` is outside the package: the bytes it wrote, `stackBuf[:n]`,
  are an argument `raw` of `New`.
* `fmt.Sprintf` is outside the package: it is modelled for the verbs `%v` and
  `%s`, which are the ones `String` uses.  Under `%v` an error operand is printed
  the way `fmt` does it: by its `Format` method when it implements
  `fmt.Formatter`, by its `Error` method otherwise, and with the text `fmt` puts
  in place of a panic of either method.
* `String` may call itself through `%v` (an `Err` that is a `*ErrorStackTrace`),
  without end on a cyclic heap: it takes the depth of calls it may make, and
  `Outcome.outOfFuel` says that the depth was not enough.
-/

namespace Errstack

/-- A byte of a Go `[]byte` or `string`. -/
abbrev Byte := Nat

/-- The byte `'\n'`. -/
abbrev newline : Byte := 10

/-- The constant `StackTraceSize`: the size of the stack trace buffer for reading. -/
def StackTraceSize : Nat := 4096

/-! ## `cutLines` -/

/-- The slice expression `s[:hi]`; it panics when `hi` is out of range.  (Go checks
`hi` against the capacity, which is at least the length: the model checks the
length, which is the stricter test.) -/
def sliceTo (s : List Byte) (hi : Int) : Except String (List Byte) :=
  if 0 ≤ hi ∧ hi ≤ (s.length : Int) then .ok (s.take hi.toNat)
  else .error "slice bounds out of range"

/-- The slice expression `s[lo:]`; it panics when `lo` is out of range. -/
def sliceFrom (s : List Byte) (lo : Int) : Except String (List Byte) :=
  if 0 ≤ lo ∧ lo ≤ (s.length : Int) then .ok (s.drop lo.toNat)
  else .error "slice bounds out of range"

/-- The `for i, _ := range str` loop of `cutLines`, run on the bytes that are still
to be visited.  The arguments after the bytes are the loop index `i` and the
variables `start`, `end` and `currLine`; the result is the pair `(start, end)`
when the loop is left, by `break` or at the end of `str`. -/
def cutLinesLoop (startLine endLine : Int) :
    List Byte → Int → Int → Int → Int → Int × Int
  | [], _, start, end_, _ => (start, end_)
  | b :: rest, i, start, end_, currLine =>
    if b = newline then
      -- currLine += 1
      if start = -1 then
        if currLine + 1 = startLine then
          cutLinesLoop startLine endLine rest (i + 1) (i + 1) end_ (currLine + 1)
        else
          cutLinesLoop startLine endLine rest (i + 1) start end_ (currLine + 1)
      else
        if currLine + 1 - 1 = endLine then
          (start, i + 1)
        else
          cutLinesLoop startLine endLine rest (i + 1) start end_ (currLine + 1)
    else
      cutLinesLoop startLine endLine rest (i + 1) start end_ currLine

/-- The function `cutLines(str, startLine, endLine)`. -/
def cutLines (str : List Byte) (startLine endLine : Int) : Except String (List Byte) :=
  if startLine < 0 ∨ endLine < 0 ∨ endLine ≤ startLine then
    .error "Invalid startLine or endLine"
  else
    let start0 : Int := if startLine = 0 then 0 else -1
    let r := cutLinesLoop startLine endLine str 0 start0 (-1) 0
    let start := r.1
    let end_ : Int := if r.2 < 0 then (str.length : Int) else r.2
    if start ≥ 0 ∧ end_ > start then do
      let a ← sliceTo str start
      let c ← sliceFrom str end_
      pure (a ++ c)
    else
      .ok str

/-! ## Errors, the heap and `ErrorStackTrace` -/

/-- A pointer to an `ErrorStackTrace`: an address of the heap, `0` being nil. -/
abbrev Ptr := Nat

/-- What the `Error` method of a plain error does when it is called: it returns a
text, or it panics, `value` being the panic value as `fmt` prints it. -/
inductive ErrorCall where
  | returns (text : List Byte) : ErrorCall
  | panics (value : List Byte) : ErrorCall
  deriving DecidableEq, Repr

/-- What the `Format` method of a plain error that implements `fmt.Formatter` does
when `fmt` calls it for the verb `%v`: the bytes it writes and, when it ends with a
panic, the panic value as `fmt` prints it. -/
structure FormatCall where
  written : List Byte
  panicValue : Option (List Byte)
  deriving DecidableEq, Repr

/-- A non-nil error whose dynamic type is not `*ErrorStackTrace`, by what `fmt` can see
of it: `id` stands for the identity of the value, `nilPointer` says that the value is a
nil pointer (of another pointer type), `Format` is its `Format` method when it
implements `fmt.Formatter`, and `Error` is its `Error` method.  The methods are taken
to end (by a return or a panic) and a panic value to be one that `fmt` prints. -/
structure PlainError where
  id : Nat
  nilPointer : Bool
  Format : Option FormatCall
  Error : ErrorCall
  deriving DecidableEq, Repr

/-- A value of the interface type `error`.

* `nil` is the nil interface value.
* `plain x` is a non-nil error whose dynamic type is not `*ErrorStackTrace`.
* `stackTrace p` is an error whose dynamic type is `*ErrorStackTrace`, the pointer
  being `p` (which may be the nil pointer). -/
inductive GoError where
  | nil : GoError
  | plain (x : PlainError) : GoError
  | stackTrace (p : Ptr) : GoError
  deriving DecidableEq, Repr

/-- The struct `ErrorStackTrace`: the original error and the stack trace at the time
when `New` was called. -/
structure ErrorStackTrace where
  Err : GoError
  StackTrace : List Byte
  deriving DecidableEq, Repr

/-- The allocated `ErrorStackTrace` structs: address `p + 1` holds the `p`-th one. -/
abbrev Heap := List ErrorStackTrace

/-- The struct at address `p`; there is none at the nil pointer (nor at an address
that was never allocated, which no Go pointer holds). -/
def Heap.deref (h : Heap) (p : Ptr) : Option ErrorStackTrace :=
  if p = 0 then none else h[p - 1]?

/-- The expression `&ErrorStackTrace{...}`: a fresh address and the heap that holds the
new struct there. -/
def Heap.alloc (h : Heap) (v : ErrorStackTrace) : Ptr × Heap :=
  (h.length + 1, h ++ [v])

/-- What a method call does: it returns a value, it panics, or (in the model) it has
not returned within the call depth it was given. -/
inductive Outcome (α : Type) where
  | ok (a : α) : Outcome α
  | panic (msg : String) : Outcome α
  | outOfFuel : Outcome α
  deriving DecidableEq, Repr

/-- The text `<nil>`, which `fmt` prints for a nil operand. -/
def nilAngleString : List Byte := [60, 110, 105, 108, 62]

/-- The format string `"%v\n%s"` of `String`. -/
def stringFormat : List Byte := [37, 118, 10, 37, 115]

/-- The function `fmt.Sprintf`, for the verbs `%v` and `%s`, on operands that are given
by their rendering.  A verb takes the next operand; a verb without operand prints
`%!v(MISSING)` (with its own letter).  The rest of `fmt` is not modelled: any other
byte is copied, and operands that are left over are dropped. -/
def Sprintf : List Byte → List (List Byte) → List Byte
  | [], _ => []
  | [b], _ => [b]
  | b :: v :: rest, args =>
    if b = 37 ∧ (v = 118 ∨ v = 115) then
      match args with
      | a :: as => a ++ Sprintf rest as
      | [] => [37, 33, v, 40, 77, 73, 83, 83, 73, 78, 71, 41] ++ Sprintf rest []
    else
      b :: Sprintf (v :: rest) args

/-- The text `%!`, with which `fmt` starts a diagnostic. -/
def percentBangString : List Byte := [37, 33]

/-- The text `(PANIC=`. -/
def panicString : List Byte := [40, 80, 65, 78, 73, 67, 61]

/-- The method name `Error`. -/
def errorMethodName : List Byte := [69, 114, 114, 111, 114]

/-- The method name `Format`. -/
def formatMethodName : List Byte := [70, 111, 114, 109, 97, 116]

/-- What `fmt` writes, under `%v`, when a method of the operand has panicked
(`catchPanic`): `<nil>` when the operand is a nil pointer, and otherwise
`%!v(PANIC=Error method: value)`, with the name of the method and the panic value. -/
def catchPanic (nilPointer : Bool) (method value : List Byte) : List Byte :=
  if nilPointer then nilAngleString
  else percentBangString ++ [118] ++ panicString ++ method
    ++ [32, 109, 101, 116, 104, 111, 100, 58, 32] ++ value ++ [41]

/-- How `fmt` prints a plain error under `%v` (`handleMethods`): an operand that
implements `fmt.Formatter` is printed by its `Format` method; any other error is
printed by its `Error` method; a panic of the method is caught and reported after what
was written. -/
def PlainError.handleMethods (x : PlainError) : List Byte :=
  match x.Format with
  | some f =>
    match f.panicValue with
    | none => f.written
    | some value => f.written ++ catchPanic x.nilPointer formatMethodName value
  | none =>
    match x.Error with
    | .returns text => text
    | .panics value => catchPanic x.nilPointer errorMethodName value

/-- How `fmt` renders an error operand under `%v`: `<nil>` for the nil interface, what
`handleMethods` prints for a plain error, and the result of the `Error` method for a
`*ErrorStackTrace` (which has no `Format` method); `errorMethod` is the `Error` method
of `*ErrorStackTrace`.  On a nil `*ErrorStackTrace` that method panics, and `fmt`
recovers and prints `<nil>`; on any other pointer that Go can hold it does not
panic. -/
def formatV (errorMethod : Ptr → Outcome (List Byte)) : GoError → Outcome (List Byte)
  | .nil => .ok nilAngleString
  | .plain x => .ok x.handleMethods
  | .stackTrace p => if p = 0 then .ok nilAngleString else errorMethod p

/-- The method `(*ErrorStackTrace).String`, with the number of nested calls it may make
(an `Err` that is itself a `*ErrorStackTrace` is rendered by its own `Error`, which is
its `String`). -/
def ErrorStackTrace.String (h : Heap) : Nat → Ptr → Outcome (List Byte)
  | 0, _ => .outOfFuel
  | fuel + 1, self =>
    match h.deref self with
    | none => .panic "invalid memory address or nil pointer dereference"
    | some e =>
      match formatV (ErrorStackTrace.String h fuel) e.Err with
      | .ok d => .ok (Sprintf stringFormat [d, e.StackTrace])
      | r => r

/-- The method `(*ErrorStackTrace).Error`: it returns `self.String()`. -/
def ErrorStackTrace.Error (h : Heap) (fuel : Nat) (self : Ptr) : Outcome (List Byte) :=
  ErrorStackTrace.String h fuel self

/-- The function `New(err)`.  `h` is the heap before the call and `raw` is what
`runtime.Stack` wrote, `stackBuf[:n]`; the result is the returned pointer and the heap
after the call. -/
def New (h : Heap) (raw : List Byte) (err : GoError) : Except String (Ptr × Heap) :=
  match err with
  | .nil => .ok (0, h)
  | .stackTrace stackError => .ok (stackError, h)
  | .plain x => do
    -- cut out the 2nd and 3rd lines
    let stack ← cutLines raw 1 2
    pure (h.alloc { Err := .plain x, StackTrace := stack })

/-! ## Lines of a text -/

/-- The lines of a text, each with its terminating newline; the last line may lack
one.  The empty text has no line. -/
def splitLines : List Byte → List (List Byte)
  | [] => []
  | b :: t =>
    if b = newline then [b] :: splitLines t
    else
      match splitLines t with
      | [] => [[b]]
      | l :: ls => (b :: l) :: ls

/-- The text made of the lines whose index, counted from `0`, is below `startLine` or
above `endLine`, in order. -/
def linesOutside (text : List Byte) (startLine endLine : Int) : List Byte :=
  (((splitLines text).enum.filter
    (fun p => decide ((p.1 : Int) < startLine ∨ (p.1 : Int) > endLine))).map Prod.snd).flatten

/-- The text before the first newline of a text: its first line. -/
def firstLine (text : List Byte) : List Byte :=
  text.takeWhile (fun b => decide (b ≠ newline))


/-- The first `k` lines of a text, each with its terminating newline: the prefix
up to and including the `k`-th newline, or the whole text when it has fewer than
`k` newlines. -/
def takeLines : Nat → List Byte → List Byte
  | 0, _ => []
  | _ + 1, [] => []
  | k + 1, b :: t => if b = newline then b :: takeLines k t else b :: takeLines (k + 1) t

/-- The text without its first `k` lines: what follows the `k`-th newline, or
nothing when the text has fewer than `k` newlines. -/
def dropLines : Nat → List Byte → List Byte
  | 0, t => t
  | _ + 1, [] => []
  | k + 1, b :: t => if b = newline then dropLines k t else dropLines (k + 1) t

/-- A chain of further calls of `New`, each on the result of the one before and each
with its own stack snapshot: `New(New(... New(e)))`. -/
def NewChain : Ptr × Heap → List (List Byte) → Except String (Ptr × Heap)
  | r, [] => .ok r
  | r, raw :: rest =>
    match New r.2 raw (.stackTrace r.1) with
    | .ok r2 => NewChain r2 rest
    | .error msg => .error msg

/-- The text `L0\nL1\n...\nL9\n`, of ten lines. -/
def tenLines : List Byte :=
  [76, 48, 10, 76, 49, 10, 76, 50, 10, 76, 51, 10, 76, 52, 10,
   76, 53, 10, 76, 54, 10, 76, 55, 10, 76, 56, 10, 76, 57, 10]

/-- The text `L0\nL3\nL4\n...\nL9\n`. -/
def tenLinesCut : List Byte :=
  [76, 48, 10, 76, 51, 10, 76, 52, 10,
   76, 53, 10, 76, 54, 10, 76, 55, 10, 76, 56, 10, 76, 57, 10]

/-- The text `bad`. -/
def bad : List Byte := [98, 97, 100]

/-- The error `errors.New("bad")`: no `Format` method, and `Error` returns `bad`. -/
def badError : PlainError :=
  { id := 0, nilPointer := false, Format := none, Error := .returns bad }

/-- The text `from Format`. -/
def fromFormat : List Byte := [102, 114, 111, 109, 32, 70, 111, 114, 109, 97, 116]

/-- The text `from Error`. -/
def fromError : List Byte := [102, 114, 111, 109, 32, 69, 114, 114, 111, 114]

/-- An error that implements `fmt.Formatter`: `Format` writes `from Format` and `Error`
returns `from Error`. -/
def fmtErr : PlainError :=
  { id := 1, nilPointer := false,
    Format := some { written := fromFormat, panicValue := none },
    Error := .returns fromError }

/-- An error whose `Error` method panics with the value `"bad"`. -/
def panicErr : PlainError :=
  { id := 2, nilPointer := false, Format := none, Error := .panics bad }

/-- The text `L0\nL1\n`, of two lines. -/
def twoLines : List Byte := [76, 48, 10, 76, 49, 10]

/-! ## Lemmas on lines -/

theorem takeLines_append_dropLines (k : Nat) (t : List Byte) :
    takeLines k t ++ dropLines k t = t := by
  induction t generalizing k with
  | nil => cases k <;> simp [takeLines, dropLines]
  | cons b t ih =>
    cases k with
    | zero => simp [takeLines, dropLines]
    | succ k =>
      by_cases hb : b = newline
      · simp [takeLines, dropLines, hb, ih k]
      · simp [takeLines, dropLines, hb, ih (k + 1)]

theorem length_takeLines_le (k : Nat) (t : List Byte) :
    (takeLines k t).length ≤ t.length := by
  have h := congrArg List.length (takeLines_append_dropLines k t)
  simp only [List.length_append] at h
  omega

theorem take_length_takeLines (k : Nat) (t : List Byte) :
    t.take (takeLines k t).length = takeLines k t := by
  have h : (takeLines k t ++ dropLines k t).take (takeLines k t).length = takeLines k t :=
    List.take_left _ _
  rwa [takeLines_append_dropLines] at h

theorem drop_length_takeLines (k : Nat) (t : List Byte) :
    t.drop (takeLines k t).length = dropLines k t := by
  have h : (takeLines k t ++ dropLines k t).drop (takeLines k t).length = dropLines k t :=
    List.drop_left _ _
  rwa [takeLines_append_dropLines] at h

theorem dropLines_of_count_lt (k : Nat) (t : List Byte) (h : t.count newline < k) :
    dropLines k t = [] := by
  induction t generalizing k with
  | nil => cases k <;> simp [dropLines] at *
  | cons b t ih =>
    cases k with
    | zero => simp at h
    | succ k =>
      by_cases hb : b = newline
      · subst hb
        simp only [List.count_cons_self] at h
        simp only [dropLines, if_true]
        exact ih k (by omega)
      · have hb2 : (b == newline) = false := by simpa using hb
        simp only [List.count_cons, hb2] at h
        simp only [dropLines, hb, if_false]
        exact ih (k + 1) (by simpa using h)

theorem takeLines_of_count_lt (k : Nat) (t : List Byte) (h : t.count newline < k) :
    takeLines k t = t := by
  have h1 := takeLines_append_dropLines k t
  rw [dropLines_of_count_lt k t h] at h1
  simpa using h1

theorem count_takeLines (k : Nat) (t : List Byte) :
    (takeLines k t).count newline = min k (t.count newline) := by
  induction t generalizing k with
  | nil => cases k <;> simp [takeLines]
  | cons b t ih =>
    cases k with
    | zero => simp [takeLines]
    | succ k =>
      by_cases hb : b = newline
      · subst hb
        simp only [takeLines, if_true, List.count_cons_self, ih k]
        omega
      · have hb2 : (b == newline) = false := by simpa using hb
        simp only [takeLines, hb, if_false, List.count_cons, hb2, ih (k + 1)]
        simp

theorem count_dropLines (k : Nat) (t : List Byte) :
    (dropLines k t).count newline = t.count newline - k := by
  have h := congrArg (List.count newline) (takeLines_append_dropLines k t)
  rw [List.count_append, count_takeLines] at h
  omega

theorem dropLines_dropLines (j k : Nat) (t : List Byte) :
    dropLines k (dropLines j t) = dropLines (j + k) t := by
  induction t generalizing j with
  | nil => cases j <;> cases k <;> simp [dropLines]
  | cons b t ih =>
    cases j with
    | zero => simp [dropLines]
    | succ j =>
      by_cases hb : b = newline
      · rw [show j + 1 + k = (j + k) + 1 by omega]
        simp only [dropLines, hb, if_true]
        exact ih j
      · rw [show j + 1 + k = (j + k) + 1 by omega]
        simp only [dropLines, hb, if_false]
        rw [ih (j + 1), show j + 1 + k = (j + k) + 1 by omega]

theorem length_takeLines_pos (k : Nat) (t : List Byte) (h : k + 1 ≤ t.count newline) :
    0 < (takeLines (k + 1) t).length := by
  cases t with
  | nil => simp at h
  | cons b t =>
    by_cases hb : b = newline <;> simp [takeLines, hb]

/-! ## The loop of `cutLines` -/

/-- Once `start` is set, the loop leaves `start` alone and sets `end` right after the
newline that ends line `endLine`, when the text has one. -/
theorem cutLinesLoop_afterStart (s e : Int) (rest : List Byte) :
    ∀ (k : Nat) (i start en c : Int), start ≠ -1 → c + ((k + 1 : Nat) : Int) = e + 1 →
      cutLinesLoop s e rest i start en c =
        (start, if k + 1 ≤ rest.count newline
                then i + ((takeLines (k + 1) rest).length : Int) else en) := by
  induction rest with
  | nil => intro k i start en c _ _; simp [cutLinesLoop]
  | cons b rest ih =>
    intro k i start en c hs hc
    by_cases hb : b = newline
    · subst hb
      cases k with
      | zero =>
        have hce : c + 1 - 1 = e := by push_cast at hc; omega
        simp [cutLinesLoop, hs, hce, takeLines]
      | succ k =>
        have hce : ¬ (c + 1 - 1 = e) := by push_cast at hc; omega
        have h := ih k (i + 1) start en (c + 1) hs (by push_cast at hc ⊢; omega)
        simp only [cutLinesLoop, if_true, hs, if_false, hce, h, List.count_cons_self,
          takeLines, List.length_cons, Nat.add_le_add_iff_right]
        by_cases hk : k + 1 ≤ rest.count newline
        · simp only [hk, if_true]; congr 1; push_cast; omega
        · simp only [hk, if_false]
    · have hcnt : (b :: rest).count newline = rest.count newline := by
        simp [List.count_cons, hb]
      have h := ih k (i + 1) start en c hs hc
      simp only [cutLinesLoop, hb, if_false, h, hcnt, takeLines, List.length_cons]
      by_cases hk : k + 1 ≤ rest.count newline
      · simp only [hk, if_true]; congr 1; push_cast; omega
      · simp only [hk, if_false]

/-- While `start` is unset, the loop runs to the newline that ends line
`startLine - 1`, sets `start` right after it and goes on from there; when the text
has no such newline, `start` and `end` are left as they were. -/
theorem cutLinesLoop_beforeStart (s e : Int) (rest : List Byte) :
    ∀ (j : Nat) (i en c : Int), c + ((j + 1 : Nat) : Int) = s →
      cutLinesLoop s e rest i (-1) en c =
        if j + 1 ≤ rest.count newline then
          cutLinesLoop s e (dropLines (j + 1) rest)
            (i + ((takeLines (j + 1) rest).length : Int))
            (i + ((takeLines (j + 1) rest).length : Int)) en s
        else (-1, en) := by
  induction rest with
  | nil => intro j i en c _; simp [cutLinesLoop]
  | cons b rest ih =>
    intro j i en c hc
    by_cases hb : b = newline
    · subst hb
      cases j with
      | zero =>
        have hcs : c + 1 = s := by push_cast at hc; omega
        simp [cutLinesLoop, hcs, takeLines, dropLines]
      | succ j =>
        have hcs : ¬ (c + 1 = s) := by push_cast at hc; omega
        have h := ih j (i + 1) en (c + 1) (by push_cast at hc ⊢; omega)
        simp only [cutLinesLoop, if_true, hcs, if_false, h, List.count_cons_self,
          takeLines, dropLines, List.length_cons, Nat.add_le_add_iff_right]
        by_cases hj : j + 1 ≤ rest.count newline
        · simp only [hj, if_true]; congr 1 <;> push_cast <;> omega
        · simp only [hj, if_false]
    · have hcnt : (b :: rest).count newline = rest.count newline := by
        simp [List.count_cons, hb]
      have h := ih j (i + 1) en c hc
      simp only [cutLinesLoop, hb, if_false, h, hcnt, takeLines, dropLines, List.length_cons]
      by_cases hj : j + 1 ≤ rest.count newline
      · simp only [hj, if_true]; congr 1 <;> push_cast <;> omega
      · simp only [hj, if_false]

theorem takeLines_add (j k : Nat) (t : List Byte) :
    takeLines (j + k) t = takeLines j t ++ takeLines k (dropLines j t) := by
  induction t generalizing j with
  | nil => cases j <;> cases k <;> simp [takeLines, dropLines]
  | cons b t ih =>
    cases j with
    | zero => simp [takeLines, dropLines]
    | succ j =>
      rw [show j + 1 + k = (j + k) + 1 by omega]
      by_cases hb : b = newline
      · simp only [takeLines, dropLines, hb, if_true, List.cons_append, ih j]
      · simp only [takeLines, dropLines, hb, if_false, List.cons_append]
        rw [← ih (j + 1), show j + 1 + k = (j + k) + 1 by omega]

/-- The values of `start` and `end` when the loop of `cutLines` is left. -/
theorem cutLinesLoop_top (s e : Nat) (hse : s < e) (t : List Byte) :
    cutLinesLoop s e t 0 (if (s : Int) = 0 then 0 else -1) (-1) 0 =
      if s ≤ t.count newline then
        (((takeLines s t).length : Int),
          if e + 1 ≤ t.count newline then ((takeLines (e + 1) t).length : Int) else -1)
      else (-1, -1) := by
  cases s with
  | zero =>
    have h := cutLinesLoop_afterStart ((0 : Nat) : Int) e t e 0 0 (-1) 0 (by decide)
      (by push_cast; omega)
    simp only [Nat.cast_zero, if_true, Nat.zero_le, takeLines, List.length_nil] at h ⊢
    rw [h]
    by_cases hk : e + 1 ≤ t.count newline <;> simp [hk]
  | succ j =>
    obtain ⟨k, hk⟩ : ∃ k, e = j + 1 + (k + 1) := ⟨e - (j + 1) - 1, by omega⟩
    have hne : ¬ (((j + 1 : Nat) : Int) = 0) := by push_cast; omega
    have h := cutLinesLoop_beforeStart ((j + 1 : Nat) : Int) e t j 0 (-1) 0 (by push_cast; omega)
    simp only [hne, if_false]
    rw [h]
    by_cases hj : j + 1 ≤ t.count newline
    · simp only [hj, if_true]
      have h2 := cutLinesLoop_afterStart ((j + 1 : Nat) : Int) e (dropLines (j + 1) t) (k + 1)
        (0 + ((takeLines (j + 1) t).length : Int)) (0 + ((takeLines (j + 1) t).length : Int))
        (-1) ((j + 1 : Nat) : Int) (by omega) (by subst hk; push_cast; omega)
      rw [h2, count_dropLines]
      have hadd := takeLines_add (j + 1) (k + 1 + 1) t
      rw [show j + 1 + (k + 1 + 1) = e + 1 by omega] at hadd
      have hlen := congrArg List.length hadd
      rw [List.length_append] at hlen
      by_cases he : e + 1 ≤ t.count newline
      · have he2 : k + 1 + 1 ≤ t.count newline - (j + 1) := by omega
        simp only [he, he2, if_true, zero_add]
        congr 1
        rw [hlen]; push_cast; ring
      · have he2 : ¬ (k + 1 + 1 ≤ t.count newline - (j + 1)) := by omega
        simp only [he, he2, if_false, zero_add]
    · simp only [hj, if_false]

/-- What `cutLines` computes on a valid range: the lines before `startLine`
followed by the lines after `endLine`. -/
theorem cutLines_eq (t : List Byte) (s e : Nat) (hse : s < e) :
    cutLines t s e = .ok (takeLines s t ++ dropLines (e + 1) t) := by
  have hguard : ¬ ((s : Int) < 0 ∨ (e : Int) < 0 ∨ (e : Int) ≤ (s : Int)) := by omega
  unfold cutLines
  simp only [hguard, if_false, cutLinesLoop_top s e hse t]
  by_cases hs : s ≤ t.count newline
  · simp only [hs, if_true]
    have hPs := length_takeLines_le s t
    by_cases he : e + 1 ≤ t.count newline
    · simp only [he, if_true]
      have hPe := length_takeLines_le (e + 1) t
      obtain ⟨k, hk⟩ : ∃ k, e + 1 = s + (k + 1) := ⟨e - s, by omega⟩
      have hadd := takeLines_add s (k + 1) t
      rw [← hk] at hadd
      have hlen := congrArg List.length hadd
      rw [List.length_append] at hlen
      have hpos := length_takeLines_pos k (dropLines s t) (by rw [count_dropLines]; omega)
      have hneg : ¬ (((takeLines (e + 1) t).length : Int) < 0) := by omega
      have hcond : ((takeLines s t).length : Int) ≥ 0 ∧
          ((takeLines (e + 1) t).length : Int) > ((takeLines s t).length : Int) := by
        constructor <;> omega
      have h1 : (0 : Int) ≤ ((takeLines s t).length : Int) ∧
          ((takeLines s t).length : Int) ≤ (t.length : Int) := by constructor <;> omega
      have h2 : (0 : Int) ≤ ((takeLines (e + 1) t).length : Int) ∧
          ((takeLines (e + 1) t).length : Int) ≤ (t.length : Int) := by constructor <;> omega
      simp only [hneg, if_false, hcond, and_self, if_true, sliceTo, sliceFrom, h1, h2,
        Int.toNat_ofNat, take_length_takeLines, drop_length_takeLines]
      rfl
    · simp only [he, if_false]
      have hd := dropLines_of_count_lt (e + 1) t (by omega)
      have hneg : ((-1 : Int) < 0) := by decide
      simp only [hneg, if_true, hd, List.append_nil]
      by_cases hlt : (takeLines s t).length < t.length
      · have hcond : ((takeLines s t).length : Int) ≥ 0 ∧
            (t.length : Int) > ((takeLines s t).length : Int) := by constructor <;> omega
        have h1 : (0 : Int) ≤ ((takeLines s t).length : Int) ∧
            ((takeLines s t).length : Int) ≤ (t.length : Int) := by constructor <;> omega
        have h2 : (0 : Int) ≤ (t.length : Int) ∧ (t.length : Int) ≤ (t.length : Int) := by
          constructor <;> omega
        simp only [hcond, and_self, if_true, sliceTo, sliceFrom, h1, h2, Int.toNat_ofNat,
          take_length_takeLines, List.drop_length]
        show Except.ok (takeLines s t ++ []) = Except.ok (takeLines s t)
        rw [List.append_nil]
      · have hcond : ¬ (((takeLines s t).length : Int) ≥ 0 ∧
            (t.length : Int) > ((takeLines s t).length : Int)) := by omega
        simp only [hcond, if_false]
        have htake := take_length_takeLines s t
        rw [List.take_of_length_le (by omega)] at htake
        rw [← htake]
  · simp only [hs, if_false]
    have hcond : ¬ ((-1 : Int) ≥ 0 ∧ (if (-1 : Int) < 0 then (t.length : Int) else -1) > -1) := by
      intro h; omega
    simp only [hcond, if_false]
    rw [takeLines_of_count_lt s t (by omega), dropLines_of_count_lt (e + 1) t (by omega)]
    simp

/-- The same with `Int` arguments, as the code receives them. -/
theorem cutLines_eq_int (t : List Byte) (s e : Int) (hs : 0 ≤ s) (hse : s < e) :
    cutLines t s e = .ok (takeLines s.toNat t ++ dropLines (e.toNat + 1) t) := by
  have h := cutLines_eq t s.toNat e.toNat (by omega)
  rwa [Int.toNat_of_nonneg hs, Int.toNat_of_nonneg (by omega)] at h

/-! ## `splitLines` and the lines outside a range -/

theorem flatten_splitLines (t : List Byte) : (splitLines t).flatten = t := by
  induction t with
  | nil => simp [splitLines]
  | cons b t ih =>
    by_cases hb : b = newline
    · simp [splitLines, hb, ih]
    · simp only [splitLines, hb, if_false]
      cases hsp : splitLines t with
      | nil => rw [hsp] at ih; simp at ih; simp [← ih]
      | cons l ls => rw [hsp] at ih; simp at ih; simp [← ih]

theorem flatten_take_splitLines (k : Nat) (t : List Byte) :
    ((splitLines t).take k).flatten = takeLines k t := by
  induction t generalizing k with
  | nil => cases k <;> simp [splitLines, takeLines]
  | cons b t ih =>
    cases k with
    | zero => simp [takeLines]
    | succ k =>
      by_cases hb : b = newline
      · simp [splitLines, takeLines, hb, ih k]
      · have h := ih (k + 1)
        simp only [splitLines, takeLines, hb, if_false]
        cases hsp : splitLines t with
        | nil => rw [hsp] at h; simp at h; simp [← h]
        | cons l ls => rw [hsp] at h; simp at h; simp [← h]

theorem flatten_drop_splitLines (k : Nat) (t : List Byte) :
    ((splitLines t).drop k).flatten = dropLines k t := by
  induction t generalizing k with
  | nil => cases k <;> simp [splitLines, dropLines]
  | cons b t ih =>
    cases k with
    | zero => simp [dropLines, flatten_splitLines]
    | succ k =>
      by_cases hb : b = newline
      · simp [splitLines, dropLines, hb, ih k]
      · have h := ih (k + 1)
        simp only [splitLines, dropLines, hb, if_false]
        cases hsp : splitLines t with
        | nil => rw [hsp] at h; simp at h; simp [← h]
        | cons l ls => rw [hsp] at h; simp at h; simp [← h]

/-- Keeping the entries of an enumerated list whose index is outside `[s, e]` keeps
the first `s` entries and drops the next ones up to index `e`. -/
theorem filter_enumFrom_outside (s e : Nat) (hse : s ≤ e) (L : List (List Byte)) :
    ∀ n : Nat,
      (((L.enumFrom n).filter
        (fun p => decide ((p.1 : Int) < (s : Int) ∨ (p.1 : Int) > (e : Int)))).map
          Prod.snd).flatten
        = (L.take (s - n)).flatten ++ (L.drop (e + 1 - n)).flatten := by
  induction L with
  | nil => intro n; simp
  | cons l L ih =>
    intro n
    have h := ih (n + 1)
    simp only [List.enumFrom_cons, List.filter_cons]
    by_cases h1 : n < s
    · have hc : ((n : Int) < (s : Int) ∨ (n : Int) > (e : Int)) := Or.inl (by omega)
      obtain ⟨a, ha⟩ : ∃ a, s - n = a + 1 := ⟨s - n - 1, by omega⟩
      obtain ⟨c, hc2⟩ : ∃ c, e + 1 - n = c + 1 := ⟨e + 1 - n - 1, by omega⟩
      have ha2 : s - (n + 1) = a := by omega
      have hc3 : e + 1 - (n + 1) = c := by omega
      rw [ha2, hc3] at h
      simp only [hc, decide_True, if_true, List.map_cons, List.flatten_cons, h, ha, hc2,
        List.take_succ_cons, List.drop_succ_cons, List.append_assoc]
    · by_cases h2 : n ≤ e
      · have hc : ¬ ((n : Int) < (s : Int) ∨ (n : Int) > (e : Int)) := by omega
        obtain ⟨c, hc2⟩ : ∃ c, e + 1 - n = c + 1 := ⟨e + 1 - n - 1, by omega⟩
        have ha2 : s - (n + 1) = 0 := by omega
        have ha : s - n = 0 := by omega
        have hc3 : e + 1 - (n + 1) = c := by omega
        rw [ha2, hc3] at h
        simp only [hc, decide_False, Bool.false_eq_true, if_false, h, ha, hc2,
          List.drop_succ_cons]
        simp
      · have hc : ((n : Int) < (s : Int) ∨ (n : Int) > (e : Int)) := Or.inr (by omega)
        have ha2 : s - (n + 1) = 0 := by omega
        have ha : s - n = 0 := by omega
        have hc2 : e + 1 - n = 0 := by omega
        have hc3 : e + 1 - (n + 1) = 0 := by omega
        rw [ha2, hc3] at h
        simp only [hc, decide_True, if_true, List.map_cons, List.flatten_cons, h, ha, hc2]
        simp

/-- The lines outside `[s, e]` are the first `s` lines followed by the lines after
line `e`. -/
theorem linesOutside_eq (t : List Byte) (s e : Nat) (hse : s ≤ e) :
    linesOutside t s e = takeLines s t ++ dropLines (e + 1) t := by
  have h := filter_enumFrom_outside s e hse (splitLines t) 0
  simp only [Nat.sub_zero] at h
  unfold linesOutside List.enum
  rw [h, flatten_take_splitLines, flatten_drop_splitLines]

/-! ## Lemmas on the heap, `New` and `String` -/

theorem deref_alloc (h : Heap) (v : ErrorStackTrace) :
    (h.alloc v).2.deref (h.alloc v).1 = some v := by
  simp [Heap.alloc, Heap.deref]

theorem deref_fresh (h : Heap) (v : ErrorStackTrace) :
    h.deref (h.alloc v).1 = none := by
  simp [Heap.alloc, Heap.deref]

theorem cutLines_one_two (raw : List Byte) :
    cutLines raw 1 2 = .ok (takeLines 1 raw ++ dropLines 3 raw) :=
  cutLines_eq raw 1 2 (by decide)

theorem New_plain (h : Heap) (raw : List Byte) (x : PlainError) :
    New h raw (.plain x) =
      .ok (h.alloc { Err := .plain x, StackTrace := takeLines 1 raw ++ dropLines 3 raw }) := by
  simp only [New, cutLines_one_two]
  rfl

theorem Sprintf_stringFormat (a b : List Byte) :
    Sprintf stringFormat [a, b] = a ++ newline :: b := by
  simp [Sprintf, stringFormat]

theorem String_succ (h : Heap) (fuel : Nat) (p : Ptr) (e : ErrorStackTrace) (d : List Byte)
    (hp : h.deref p = some e)
    (hd : formatV (ErrorStackTrace.String h fuel) e.Err = .ok d) :
    ErrorStackTrace.String h (fuel + 1) p = .ok (d ++ newline :: e.StackTrace) := by
  simp only [ErrorStackTrace.String, hp, hd, Sprintf_stringFormat]

theorem getLast?_takeLines (k : Nat) (t : List Byte) (h : k + 1 ≤ t.count newline) :
    (takeLines (k + 1) t).getLast? = some newline := by
  induction t generalizing k with
  | nil => simp at h
  | cons b t ih =>
    by_cases hb : b = newline
    · subst hb
      simp only [List.count_cons_self] at h
      cases k with
      | zero => simp [takeLines]
      | succ k =>
        have h2 := ih k (by omega)
        simp only [takeLines, if_true]
        rw [List.getLast?_cons, h2]
        rfl
    · have hcnt : (b :: t).count newline = t.count newline := by simp [List.count_cons, hb]
      rw [hcnt] at h
      have h2 := ih k h
      simp only [takeLines, hb, if_false]
      rw [List.getLast?_cons, h2]
      rfl

theorem firstLine_append_newline (m rest : List Byte) (hm : newline ∉ m) :
    firstLine (m ++ newline :: rest) = m := by
  induction m with
  | nil => simp [firstLine]
  | cons b m ih =>
    have hb : b ≠ newline := fun hb => hm (by simp [hb])
    have hm2 : newline ∉ m := fun hin => hm (List.mem_cons_of_mem _ hin)
    have h := ih hm2
    unfold firstLine at h ⊢
    simp only [List.cons_append, List.takeWhile_cons, hb, ne_eq, not_false_eq_true,
      decide_True, if_true, h]

theorem String_plain (h : Heap) (fuel : Nat) (p : Ptr) (x : PlainError) (st : List Byte)
    (hp : h.deref p = some { Err := .plain x, StackTrace := st }) :
    ErrorStackTrace.String h (fuel + 1) p = .ok (x.handleMethods ++ newline :: st) :=
  String_succ h fuel p _ x.handleMethods hp rfl

/-- An error without `Format` method whose `Error` returns is printed as the text that
`Error` returns. -/
theorem handleMethods_of_Error (x : PlainError) (m : List Byte)
    (hf : x.Format = none) (he : x.Error = .returns m) : x.handleMethods = m := by
  simp [PlainError.handleMethods, hf, he]

/-- An error that implements `fmt.Formatter` is printed as what `Format` writes, when
it returns, whatever `Error` does. -/
theorem handleMethods_of_Format (x : PlainError) (w : List Byte)
    (hf : x.Format = some { written := w, panicValue := none }) : x.handleMethods = w := by
  simp [PlainError.handleMethods, hf]

/-- The error `fmtErr` with the trace `L0\nL1\n`: `String` returns `from Format`, a
newline and the trace. -/
theorem String_fmtErr :
    ErrorStackTrace.String [{ Err := .plain fmtErr, StackTrace := twoLines }] 1 1
      = .ok (fromFormat ++ [newline] ++ twoLines) := by
  decide

/-- The error `panicErr` with the trace `L0\nL1\n`: `String` returns
`%!v(PANIC=Error method: bad)`, a newline and the trace. -/
theorem String_panicErr :
    ErrorStackTrace.String [{ Err := .plain panicErr, StackTrace := twoLines }] 1 1
      = .ok ([37, 33, 118, 40, 80, 65, 78, 73, 67, 61, 69, 114, 114, 111, 114, 32,
        109, 101, 116, 104, 111, 100, 58, 32, 98, 97, 100, 41] ++ [newline] ++ twoLines) := by
  decide

/-- A single-line range is refused: on `L0\nL1\nL2\n` with `(1, 1)` the guard of
`cutLines` panics, while its comment speaks of the lines between `startLine` and
`endLine`, inclusive. -/
theorem cutLines_single_line :
    cutLines [76, 48, 10, 76, 49, 10, 76, 50, 10] 1 1
      = .error "Invalid startLine or endLine" := rfl

/-- Every line of `splitLines` is non-empty and has no newline before its last byte. -/
theorem splitLines_line_shape (t : List Byte) :
    ∀ l ∈ splitLines t, l ≠ [] ∧ newline ∉ l.dropLast := by
  induction t with
  | nil => simp [splitLines]
  | cons b t ih =>
    by_cases hb : b = newline
    · intro l hl
      simp only [splitLines, hb, if_true, List.mem_cons] at hl
      rcases hl with rfl | hl
      · simp
      · exact ih l hl
    · intro l hl
      simp only [splitLines, hb, if_false] at hl
      cases hsp : splitLines t with
      | nil =>
        rw [hsp] at hl
        simp only [List.mem_singleton] at hl
        subst hl
        simp
      | cons l0 ls =>
        rw [hsp] at hl ih
        simp only [List.mem_cons] at hl
        rcases hl with rfl | hl
        · obtain ⟨hne, hno⟩ := ih l0 (by simp)
          obtain ⟨x, xs, rfl⟩ := List.exists_cons_of_ne_nil hne
          refine ⟨by simp, ?_⟩
          simp only [List.dropLast_cons₂, List.mem_cons, not_or]
          exact ⟨fun h => hb h.symm, hno⟩
        · exact ih l (by simp [hl])

/-- Every line of `splitLines` but the last one ends with a newline. -/
theorem splitLines_line_end (t : List Byte) :
    ∀ l ∈ (splitLines t).dropLast, l.getLast? = some newline := by
  induction t with
  | nil => simp [splitLines]
  | cons b t ih =>
    by_cases hb : b = newline
    · intro l hl
      simp only [splitLines, hb, if_true] at hl
      cases hsp : splitLines t with
      | nil => rw [hsp] at hl; simp at hl
      | cons l0 ls =>
        rw [hsp] at hl ih
        simp only [List.dropLast_cons₂, List.mem_cons] at hl
        rcases hl with rfl | hl
        · rfl
        · exact ih l hl
    · intro l hl
      simp only [splitLines, hb, if_false] at hl
      cases hsp : splitLines t with
      | nil => rw [hsp] at hl; simp at hl
      | cons l0 ls =>
        rw [hsp] at hl ih
        cases ls with
        | nil => simp at hl
        | cons l1 ls =>
          simp only [List.dropLast_cons₂, List.mem_cons] at hl ih
          rcases hl with rfl | hl
          · have h0 := ih l0 (Or.inl rfl)
            cases l0 with
            | nil => simp at h0
            | cons x xs => simpa using h0
          · exact ih l (Or.inr hl)

/-! ## The lines of the result -/

theorem splitLines_ne_nil (t : List Byte) (ht : t ≠ []) : splitLines t ≠ [] := by
  intro h
  have h2 := flatten_splitLines t
  rw [h] at h2
  exact ht h2.symm

theorem splitLines_takeLines (k : Nat) (t : List Byte) :
    splitLines (takeLines k t) = (splitLines t).take k := by
  induction t generalizing k with
  | nil => cases k <;> simp [splitLines, takeLines]
  | cons b t ih =>
    cases k with
    | zero => simp [splitLines, takeLines]
    | succ k =>
      by_cases hb : b = newline
      · simp [splitLines, takeLines, hb, ih k]
      · have h := ih (k + 1)
        simp only [splitLines, takeLines, hb, if_false, h]
        cases splitLines t with
        | nil => simp
        | cons l ls => simp

theorem splitLines_dropLines (k : Nat) (t : List Byte) :
    splitLines (dropLines k t) = (splitLines t).drop k := by
  induction t generalizing k with
  | nil => cases k <;> simp [splitLines, dropLines]
  | cons b t ih =>
    cases k with
    | zero => simp [dropLines]
    | succ k =>
      by_cases hb : b = newline
      · simp [splitLines, dropLines, hb, ih k]
      · have h := ih (k + 1)
        simp only [splitLines, dropLines, hb, if_false, h]
        cases splitLines t with
        | nil => simp
        | cons l ls => simp

/-- The lines of two texts put together are the lines of the first followed by the
lines of the second, when the first is empty or ends with a newline. -/
theorem splitLines_append (a c : List Byte) (ha : a = [] ∨ a.getLast? = some newline) :
    splitLines (a ++ c) = splitLines a ++ splitLines c := by
  induction a with
  | nil => simp [splitLines]
  | cons b a ih =>
    have hlast : (b :: a).getLast? = some newline := by
      rcases ha with ha | ha
      · exact absurd ha (by simp)
      · exact ha
    by_cases hb : b = newline
    · by_cases hnil : a = []
      · subst hnil; simp [splitLines, hb]
      · have ha2 : a.getLast? = some newline := by
          obtain ⟨x, xs, rfl⟩ := List.exists_cons_of_ne_nil hnil
          simpa using hlast
        simp [splitLines, hb, ih (Or.inr ha2)]
    · have hnil : a ≠ [] := by
        intro hnil
        subst hnil
        simp at hlast
        exact hb hlast
      have ha2 : a.getLast? = some newline := by
        obtain ⟨x, xs, rfl⟩ := List.exists_cons_of_ne_nil hnil
        simpa using hlast
      have h := ih (Or.inr ha2)
      obtain ⟨l, ls, hl⟩ := List.exists_cons_of_ne_nil (splitLines_ne_nil a hnil)
      simp only [List.cons_append, splitLines, hb, if_false]
      rw [show a.append c = a ++ c from rfl, h, hl]
      rfl

/-- The lines of what `cutLines` returns: the first `s` lines of the text and its
lines after line `e`, each one whole. -/
theorem splitLines_cut (t : List Byte) (s e : Nat) (hse : s ≤ e) :
    splitLines (takeLines s t ++ dropLines (e + 1) t)
      = (splitLines t).take s ++ (splitLines t).drop (e + 1) := by
  by_cases he : e + 1 ≤ t.count newline
  · have ha : takeLines s t = [] ∨ (takeLines s t).getLast? = some newline := by
      cases s with
      | zero => exact Or.inl (by simp [takeLines])
      | succ k => exact Or.inr (getLast?_takeLines k t (by omega))
    rw [splitLines_append _ _ ha, splitLines_takeLines, splitLines_dropLines]
  · have hd := dropLines_of_count_lt (e + 1) t (by omega)
    have hd2 := splitLines_dropLines (e + 1) t
    rw [hd] at hd2
    rw [hd, List.append_nil, splitLines_takeLines, ← hd2]
    simp [splitLines]

theorem count_le_length_splitLines (t : List Byte) :
    t.count newline ≤ (splitLines t).length := by
  induction t with
  | nil => simp
  | cons b t ih =>
    by_cases hb : b = newline
    · subst hb
      simp only [List.count_cons_self, splitLines, if_true, List.length_cons]
      omega
    · have hcnt : (b :: t).count newline = t.count newline := by simp [List.count_cons, hb]
      rw [hcnt]
      simp only [splitLines, hb, if_false]
      cases hsp : splitLines t with
      | nil => rw [hsp] at ih; simp at ih ⊢; omega
      | cons l ls => rw [hsp] at ih; simpa using ih

/-! ## Length and last byte of the result -/

theorem length_dropLines_le (k : Nat) (t : List Byte) :
    (dropLines k t).length ≤ t.length := by
  have h := congrArg List.length (takeLines_append_dropLines k t)
  simp only [List.length_append] at h
  omega

/-- The lines before `s` together with the lines after `e` are no longer than the
text. -/
theorem length_cut_le (t : List Byte) (s e : Nat) (hse : s ≤ e) :
    (takeLines s t ++ dropLines (e + 1) t).length ≤ t.length := by
  have h1 := congrArg List.length (takeLines_append_dropLines s t)
  have h2 := dropLines_dropLines s (e + 1 - s) t
  rw [show s + (e + 1 - s) = e + 1 by omega] at h2
  have h3 := length_dropLines_le (e + 1 - s) (dropLines s t)
  rw [h2] at h3
  simp only [List.length_append] at h1 ⊢
  omega

theorem getLast?_dropLines (k : Nat) (t : List Byte) (hd : dropLines k t ≠ []) :
    (dropLines k t).getLast? = t.getLast? := by
  have h := List.getLast?_append_of_ne_nil (takeLines k t) hd
  rw [takeLines_append_dropLines] at h
  exact h.symm

/-- A text that ends with its `k + 1`-th newline is its own first `k + 1` lines. -/
theorem takeLines_of_ends (k : Nat) (t : List Byte) (hc : t.count newline = k + 1)
    (hl : t.getLast? = some newline) : takeLines (k + 1) t = t := by
  have hd : dropLines (k + 1) t = [] := by
    by_contra hne
    have h1 := getLast?_dropLines (k + 1) t hne
    rw [hl] at h1
    have hmem : newline ∈ dropLines (k + 1) t := List.mem_of_getLast?_eq_some h1
    have hpos : 0 < (dropLines (k + 1) t).count newline := List.count_pos_iff.mpr hmem
    rw [count_dropLines] at hpos
    omega
  have h := takeLines_append_dropLines (k + 1) t
  rw [hd] at h
  simpa using h

/-- When the text ends with a newline, so does what is left of it, unless nothing is
left. -/
theorem getLast?_cut (t : List Byte) (s e : Nat) (hl : t.getLast? = some newline) :
    takeLines s t ++ dropLines (e + 1) t = [] ∨
      (takeLines s t ++ dropLines (e + 1) t).getLast? = some newline := by
  by_cases hd : dropLines (e + 1) t = []
  · rw [hd, List.append_nil]
    cases s with
    | zero => exact Or.inl (by simp [takeLines])
    | succ k =>
      by_cases hk : k + 1 ≤ t.count newline
      · exact Or.inr (getLast?_takeLines k t hk)
      · rw [takeLines_of_count_lt (k + 1) t (by omega)]
        exact Or.inr hl
  · right
    rw [List.getLast?_append_of_ne_nil _ hd, getLast?_dropLines _ _ hd, hl]

theorem NewChain_ok (snapshots : List (List Byte)) :
    ∀ r : Ptr × Heap, NewChain r snapshots = .ok r := by
  induction snapshots with
  | nil => intro r; rfl
  | cons raw rest ih => intro r; simp only [NewChain, New]; exact ih _

/-- The three parts of a text that `cutLines` works on: the lines before `s`, the
lines from `s` to `e`, and the lines after `e`. -/
theorem takeLines_mid_dropLines (t : List Byte) (s e : Nat) (hse : s ≤ e) :
    t = takeLines s t ++ takeLines (e + 1 - s) (dropLines s t) ++ dropLines (e + 1) t := by
  have h := takeLines_add s (e + 1 - s) t
  rw [show s + (e + 1 - s) = e + 1 by omega] at h
  rw [← h, takeLines_append_dropLines]

/-! ## The claims -/

/-- C1: for every text and every `0 ≤ startLine < endLine`, `cutLines` returns the
concatenation, in order, of exactly the lines of the text (each with its terminating
newline, the last one possibly without) whose index is below `startLine` or above
`endLine`. -/
theorem cutLines_keeps_lines_outside (text : List Byte) (startLine endLine : Int)
    (hs : 0 ≤ startLine) (hse : startLine < endLine) :
    cutLines text startLine endLine = .ok (linesOutside text startLine endLine) := by
  have h := cutLines_eq_int text startLine endLine hs hse
  have h2 := linesOutside_eq text startLine.toNat endLine.toNat (by omega)
  rw [Int.toNat_of_nonneg hs, Int.toNat_of_nonneg (by omega)] at h2
  rw [h, h2]

/-- Witness of C1: on the ten lines `L0\nL1\n...\nL9\n` with `(1, 2)` the result is
`L0\nL3\nL4\n...\nL9\n`. -/
theorem cutLines_keeps_lines_outside_witness :
    (0 : Int) ≤ 1 ∧ (1 : Int) < 2 ∧
      cutLines tenLines 1 2 = .ok (linesOutside tenLines 1 2) ∧
      linesOutside tenLines 1 2 = tenLinesCut :=
  ⟨by decide, by decide, cutLines_keeps_lines_outside tenLines 1 2 (by decide) (by decide),
    by decide⟩

/-- C2: `New` on an error that is already a `*ErrorStackTrace` returns that same
pointer and leaves the heap, hence the struct and its `Err` and `StackTrace`, as they
were, whatever the stack snapshot; so for every error `x` a second `New` on the result
of `New(x)` returns the result of the first, and so does any chain of further calls. -/
theorem New_wrapped_is_same_instance :
    (∀ (h : Heap) (raw : List Byte) (p : Ptr), New h raw (.stackTrace p) = .ok (p, h)) ∧
    (∀ (h : Heap) (s1 s2 : List Byte) (x : GoError),
      ∃ r, New h s1 x = .ok r ∧ New r.2 s2 (.stackTrace r.1) = .ok r) ∧
    (∀ (h : Heap) (s1 : List Byte) (x : GoError) (snapshots : List (List Byte)),
      ∃ r, New h s1 x = .ok r ∧ NewChain r snapshots = .ok r) := by
  have hchain : ∀ (snapshots : List (List Byte)) (r : Ptr × Heap),
      NewChain r snapshots = .ok r := by
    intro snapshots
    induction snapshots with
    | nil => intro r; rfl
    | cons raw rest ih => intro r; simp only [NewChain, New]; exact ih _
  have hnew : ∀ (h : Heap) (s1 : List Byte) (x : GoError), ∃ r, New h s1 x = .ok r := by
    intro h s1 x
    cases x with
    | nil => exact ⟨_, rfl⟩
    | plain x => exact ⟨_, New_plain h s1 x⟩
    | stackTrace p => exact ⟨_, rfl⟩
  refine ⟨fun _ _ _ => rfl, ?_, ?_⟩
  · intro h s1 s2 x
    obtain ⟨r, hr⟩ := hnew h s1 x
    exact ⟨r, hr, rfl⟩
  · intro h s1 x snapshots
    obtain ⟨r, hr⟩ := hnew h s1 x
    exact ⟨r, hr, hchain snapshots r⟩

/-- C3: for every plain error (non-nil, not a `*ErrorStackTrace`) and every raw stack
snapshot, `New` returns a pointer to a new struct, at an address that held nothing
before, whose `Err` is the given error and whose `StackTrace` is `cutLines(raw, 1, 2)`:
the lines of the snapshot other than those of index 1 and 2, in order. -/
theorem New_plain_wraps (h : Heap) (raw : List Byte) (x : PlainError) :
    ∃ (p : Ptr) (h1 : Heap) (stack : List Byte),
      New h raw (.plain x) = .ok (p, h1) ∧
      h.deref p = none ∧
      h1.deref p = some { Err := .plain x, StackTrace := stack } ∧
      (∀ q e, h.deref q = some e → h1.deref q = some e) ∧
      cutLines raw 1 2 = .ok stack ∧
      stack = linesOutside raw 1 2 := by
  refine ⟨(h.alloc { Err := .plain x, StackTrace := takeLines 1 raw ++ dropLines 3 raw }).1,
    (h.alloc { Err := .plain x, StackTrace := takeLines 1 raw ++ dropLines 3 raw }).2,
    takeLines 1 raw ++ dropLines 3 raw,
    New_plain h raw x, deref_fresh h _, deref_alloc h _, ?_, cutLines_one_two raw, ?_⟩
  · intro q e hq
    simp only [Heap.deref, Heap.alloc] at hq ⊢
    by_cases hq0 : q = 0
    · simp [hq0] at hq
    · simp only [hq0, if_false] at hq ⊢
      have hlt : q - 1 < h.length := by
        by_contra hge
        have hle : h.length ≤ q - 1 := Nat.le_of_not_lt hge
        rw [List.getElem?_eq_none hle] at hq
        exact absurd hq (by simp)
      rw [List.getElem?_append_left hlt]
      exact hq
  · exact (linesOutside_eq raw 1 2 (by decide)).symm

/-- C4: `New(nil)` returns the nil pointer and allocates nothing, whatever the stack
snapshot. -/
theorem New_nil (h : Heap) (raw : List Byte) : New h raw .nil = .ok (0, h) := rfl

/-- C5: `cutLines` panics if and only if `startLine < 0` or `endLine < 0` or
`endLine ≤ startLine`; for every text and every `0 ≤ startLine < endLine` it returns a
result (no slice expression is out of range); a range with `startLine = endLine` is
rejected. -/
theorem cutLines_panics_iff (text : List Byte) (startLine endLine : Int) :
    ((∃ msg, cutLines text startLine endLine = .error msg) ↔
      (startLine < 0 ∨ endLine < 0 ∨ endLine ≤ startLine)) ∧
    ((0 ≤ startLine ∧ startLine < endLine) ↔ ∃ r, cutLines text startLine endLine = .ok r) ∧
    (startLine = endLine → ∃ msg, cutLines text startLine endLine = .error msg) := by
  have hbad : (startLine < 0 ∨ endLine < 0 ∨ endLine ≤ startLine) →
      cutLines text startLine endLine = .error "Invalid startLine or endLine" := by
    intro hg
    simp only [cutLines, hg, if_true]
  have hgood : ¬ (startLine < 0 ∨ endLine < 0 ∨ endLine ≤ startLine) →
      ∃ r, cutLines text startLine endLine = .ok r := by
    intro hg
    exact ⟨_, cutLines_eq_int text startLine endLine (by omega) (by omega)⟩
  refine ⟨⟨?_, fun hg => ⟨_, hbad hg⟩⟩, ⟨fun hg => hgood (by omega), ?_⟩,
    fun heq => ⟨_, hbad (by omega)⟩⟩
  · rintro ⟨msg, hmsg⟩
    by_contra hg
    obtain ⟨r, hr⟩ := hgood hg
    rw [hr] at hmsg
    exact absurd hmsg (by simp)
  · rintro ⟨r, hr⟩
    by_contra hg
    rw [hbad (by omega)] at hr
    exact absurd hr (by simp)

/-- C6: for every `0 ≤ startLine < endLine` and every text with at least `startLine`
newlines but fewer than `endLine + 1`, `cutLines` returns the part of the text up to
and including its `startLine`-th newline (nothing when `startLine = 0`): all from line
`startLine` to the end of the text is removed. -/
theorem cutLines_short_text (text : List Byte) (startLine endLine : Int)
    (hs : 0 ≤ startLine) (hse : startLine < endLine)
    (hlo : startLine ≤ (text.count newline : Int))
    (hhi : (text.count newline : Int) < endLine + 1) :
    ∃ kept removed, cutLines text startLine endLine = .ok kept ∧
      text = kept ++ removed ∧
      (kept.count newline : Int) = startLine ∧
      (startLine = 0 → kept = []) ∧
      (0 < startLine → kept.getLast? = some newline) := by
  obtain ⟨s, rfl⟩ := Int.eq_ofNat_of_zero_le hs
  obtain ⟨e, rfl⟩ := Int.eq_ofNat_of_zero_le (show (0 : Int) ≤ endLine by omega)
  have hse2 : s < e := by omega
  refine ⟨takeLines s text, dropLines s text, ?_, (takeLines_append_dropLines s text).symm,
    ?_, ?_, ?_⟩
  · rw [cutLines_eq text s e hse2, dropLines_of_count_lt (e + 1) text (by omega)]
    simp
  · rw [count_takeLines]; omega
  · intro h0
    have : s = 0 := by omega
    subst this
    simp [takeLines]
  · intro hpos
    obtain ⟨k, rfl⟩ : ∃ k, s = k + 1 := ⟨s - 1, by omega⟩
    exact getLast?_takeLines k text (by omega)

/-- Witness of C6: the two lines `L0\nL1\n` with `(1, 2)` give the first line `L0\n`. -/
theorem cutLines_short_text_witness :
    cutLines twoLines 1 2 = .ok [76, 48, 10] ∧
    ∃ kept removed, cutLines twoLines 1 2 = .ok kept ∧
      twoLines = kept ++ removed ∧
      (kept.count newline : Int) = 1 ∧
      ((1 : Int) = 0 → kept = []) ∧
      ((0 : Int) < 1 → kept.getLast? = some newline) :=
  ⟨rfl, cutLines_short_text twoLines 1 2 (by decide) (by decide) (by decide) (by decide)⟩

/-- C7: for every `ErrorStackTrace`, `Error()` and `String()` have the same outcome,
so the same text when they return; they do return, with one text, when `Err` is not
itself a `*ErrorStackTrace`. -/
theorem Error_eq_String :
    (∀ (h : Heap) (fuel : Nat) (p : Ptr),
      ErrorStackTrace.Error h fuel p = ErrorStackTrace.String h fuel p) ∧
    (∀ (h : Heap) (p : Ptr) (e : ErrorStackTrace), h.deref p = some e →
      (∀ q, e.Err ≠ .stackTrace q) →
      ∃ text, ∀ fuel, ErrorStackTrace.Error h (fuel + 1) p = .ok text ∧
        ErrorStackTrace.String h (fuel + 1) p = .ok text) := by
  refine ⟨fun _ _ _ => rfl, ?_⟩
  intro h p e hp hq
  cases hE : e.Err with
  | nil =>
    exact ⟨nilAngleString ++ newline :: e.StackTrace, fun fuel =>
      ⟨String_succ h fuel p e _ hp (by rw [hE]; rfl), String_succ h fuel p e _ hp (by rw [hE]; rfl)⟩⟩
  | plain x =>
    exact ⟨x.handleMethods ++ newline :: e.StackTrace, fun fuel =>
      ⟨String_succ h fuel p e _ hp (by rw [hE]; rfl), String_succ h fuel p e _ hp (by rw [hE]; rfl)⟩⟩
  | stackTrace q => exact absurd hE (hq q)

/-- Witness of C7: the struct with `Err` the plain error `bad` and trace `L0\nL1\n`. -/
theorem Error_eq_String_witness :
    ErrorStackTrace.Error [{ Err := .plain badError, StackTrace := twoLines }] 1 1
      = ErrorStackTrace.String [{ Err := .plain badError, StackTrace := twoLines }] 1 1 ∧
    ErrorStackTrace.String [{ Err := .plain badError, StackTrace := twoLines }] 1 1
      = .ok (bad ++ newline :: twoLines) :=
  ⟨Error_eq_String.1 _ 1 1, by decide⟩

/-- C8: for every `ErrorStackTrace` with a non-nil `Err`, `String()` is the display
text of `Err`, then one newline, then the whole of `StackTrace`, and nothing else.  The
display text is what `fmt` prints for `Err` under `%v`: for a plain error what
`handleMethods` prints, which is the text its `Error` method returns when it has no
`Format` method. -/
theorem String_is_text_newline_trace (h : Heap) (p : Ptr) (e : ErrorStackTrace)
    (fuel : Nat) (d : List Byte)
    (hp : h.deref p = some e) (_hne : e.Err ≠ .nil)
    (hd : formatV (ErrorStackTrace.Error h fuel) e.Err = .ok d) :
    ErrorStackTrace.String h (fuel + 1) p = .ok (d ++ [newline] ++ e.StackTrace) ∧
    (∀ x, e.Err = .plain x →
      d = x.handleMethods ∧ (∀ m, x.Format = none → x.Error = .returns m → d = m)) := by
  constructor
  · have h1 := String_succ h fuel p e d hp hd
    rw [h1]
    simp
  · intro x hx
    rw [hx] at hd
    have hdx : x.handleMethods = d := Outcome.ok.inj hd
    exact ⟨hdx.symm, fun m hf he => by rw [← hdx, handleMethods_of_Error x m hf he]⟩

/-- Witness of C8: the trace `L0\nL1\n` with `Err` the plain error `bad`, and with `Err`
the error `fmtErr`, which `fmt` prints by its `Format` method. -/
theorem String_is_text_newline_trace_witness :
    ErrorStackTrace.String [{ Err := .plain badError, StackTrace := twoLines }] 1 1
      = .ok (bad ++ [newline] ++ twoLines) ∧
    ErrorStackTrace.String [{ Err := .plain fmtErr, StackTrace := twoLines }] 1 1
      = .ok (fromFormat ++ [newline] ++ twoLines) :=
  ⟨(String_is_text_newline_trace [{ Err := .plain badError, StackTrace := twoLines }] 1
      { Err := .plain badError, StackTrace := twoLines } 0 bad rfl (by decide) rfl).1,
    (String_is_text_newline_trace [{ Err := .plain fmtErr, StackTrace := twoLines }] 1
      { Err := .plain fmtErr, StackTrace := twoLines } 0 fromFormat rfl (by decide) rfl).1⟩

/-- C9: for every plain error and every stack snapshot, `New` returns a struct whose
`Error()` returns the display text `m` of the error (what `fmt` prints for it under
`%v`), a newline and the stored trace, at every call depth: the text begins with `m`
and has a newline right after it, and when `m` has no newline the first line, the text
before the first newline, is `m`.  For an error without `Format` method `m` is the text
that its `Error` method returns. -/
theorem New_Error_begins_with_text (h : Heap) (raw : List Byte) (x : PlainError) :
    ∃ (p : Ptr) (h1 : Heap) (est : ErrorStackTrace) (text : List Byte),
      New h raw (.plain x) = .ok (p, h1) ∧ h1.deref p = some est ∧
      (∀ fuel, ErrorStackTrace.Error h1 (fuel + 1) p = .ok text) ∧
      text = x.handleMethods ++ [newline] ++ est.StackTrace ∧
      (newline ∉ x.handleMethods → firstLine text = x.handleMethods) ∧
      (∀ m, x.Format = none → x.Error = .returns m →
        text = m ++ [newline] ++ est.StackTrace ∧ (newline ∉ m → firstLine text = m)) := by
  have hfirst : ∀ m : List Byte, newline ∉ m →
      firstLine (m ++ [newline] ++ (takeLines 1 raw ++ dropLines 3 raw)) = m := by
    intro m hm
    have h2 := firstLine_append_newline m (takeLines 1 raw ++ dropLines 3 raw) hm
    simpa using h2
  refine ⟨_, _, _, x.handleMethods ++ [newline] ++ (takeLines 1 raw ++ dropLines 3 raw),
    New_plain h raw x, deref_alloc h _, ?_, rfl, hfirst _, ?_⟩
  · intro fuel
    have h2 := String_plain
      (h.alloc { Err := .plain x, StackTrace := takeLines 1 raw ++ dropLines 3 raw }).2 fuel
      (h.alloc { Err := .plain x, StackTrace := takeLines 1 raw ++ dropLines 3 raw }).1 x
      (takeLines 1 raw ++ dropLines 3 raw) (deref_alloc h _)
    simpa [ErrorStackTrace.Error] using h2
  · intro m hf he
    rw [handleMethods_of_Error x m hf he]
    exact ⟨rfl, hfirst m⟩

/-- Witness of C9: the plain error `bad`, and the error `fmtErr`, on the empty heap, the
snapshot being the ten lines `L0\n...L9\n`. -/
theorem New_Error_begins_with_text_witness :
    (∃ (p : Ptr) (h1 : Heap) (est : ErrorStackTrace) (text : List Byte),
      New [] tenLines (.plain badError) = .ok (p, h1) ∧ h1.deref p = some est ∧
      (∀ fuel, ErrorStackTrace.Error h1 (fuel + 1) p = .ok text) ∧
      text = bad ++ [newline] ++ est.StackTrace ∧
      firstLine text = bad) ∧
    (∃ (p : Ptr) (h1 : Heap) (est : ErrorStackTrace) (text : List Byte),
      New [] tenLines (.plain fmtErr) = .ok (p, h1) ∧ h1.deref p = some est ∧
      (∀ fuel, ErrorStackTrace.Error h1 (fuel + 1) p = .ok text) ∧
      text = fromFormat ++ [newline] ++ est.StackTrace ∧
      firstLine text = fromFormat) := by
  constructor
  · obtain ⟨p, h1, est, text, hnew, hd, herr, _, _, hord⟩ :=
      New_Error_begins_with_text [] tenLines badError
    obtain ⟨htext, hfirst⟩ := hord bad rfl rfl
    exact ⟨p, h1, est, text, hnew, hd, herr, htext, hfirst (by decide)⟩
  · obtain ⟨p, h1, est, text, hnew, hd, herr, htext, hfirst, _⟩ :=
      New_Error_begins_with_text [] tenLines fmtErr
    exact ⟨p, h1, est, text, hnew, hd, herr, htext, hfirst (by decide)⟩

/-- C10: for every `0 ≤ startLine < endLine` and every text with at least
`endLine + 1` newlines, the result of `cutLines` has `endLine - startLine + 1` newlines
fewer than the text, and as many lines fewer; so for every snapshot with at least 3
newlines the `StackTrace` that `New` stores has 2 newlines, and 2 lines, fewer than the
snapshot. -/
theorem cutLines_newline_count :
    (∀ (text : List Byte) (startLine endLine : Int), 0 ≤ startLine → startLine < endLine →
      endLine + 1 ≤ (text.count newline : Int) →
      ∃ r, cutLines text startLine endLine = .ok r ∧
        (r.count newline : Int) = (text.count newline : Int) - (endLine - startLine + 1) ∧
        ((splitLines r).length : Int)
          = ((splitLines text).length : Int) - (endLine - startLine + 1)) ∧
    (∀ (h : Heap) (raw : List Byte) (x : PlainError), 3 ≤ raw.count newline →
      ∃ (p : Ptr) (h1 : Heap) (est : ErrorStackTrace),
        New h raw (.plain x) = .ok (p, h1) ∧ h1.deref p = some est ∧
        est.StackTrace.count newline + 2 = raw.count newline ∧
        (splitLines est.StackTrace).length + 2 = (splitLines raw).length) := by
  constructor
  · intro text startLine endLine hs hse hcnt
    obtain ⟨s, rfl⟩ := Int.eq_ofNat_of_zero_le hs
    obtain ⟨e, rfl⟩ := Int.eq_ofNat_of_zero_le (show (0 : Int) ≤ endLine by omega)
    have hlen := count_le_length_splitLines text
    refine ⟨_, cutLines_eq text s e (by omega), ?_, ?_⟩
    · rw [List.count_append, count_takeLines, count_dropLines]
      omega
    · rw [splitLines_cut text s e (by omega), List.length_append, List.length_take,
        List.length_drop]
      omega
  · intro h raw x hcnt
    have hlen := count_le_length_splitLines raw
    refine ⟨_, _, _, New_plain h raw x, deref_alloc h _, ?_, ?_⟩
    · show (takeLines 1 raw ++ dropLines 3 raw).count newline + 2 = raw.count newline
      rw [List.count_append, count_takeLines, count_dropLines]
      omega
    · show (splitLines (takeLines 1 raw ++ dropLines (2 + 1) raw)).length + 2
        = (splitLines raw).length
      rw [splitLines_cut raw 1 2 (by decide), List.length_append, List.length_take,
        List.length_drop]
      omega

/-- Witness of C10: the ten lines `L0\n...L9\n` with `(1, 2)`, and `New` on the plain
error `bad` with those ten lines as snapshot. -/
theorem cutLines_newline_count_witness :
    (∃ r, cutLines tenLines 1 2 = .ok r ∧
      (r.count newline : Int) = (tenLines.count newline : Int) - (2 - 1 + 1) ∧
      ((splitLines r).length : Int) = ((splitLines tenLines).length : Int) - (2 - 1 + 1)) ∧
    (∃ (p : Ptr) (h1 : Heap) (est : ErrorStackTrace),
      New [] tenLines (.plain badError) = .ok (p, h1) ∧ h1.deref p = some est ∧
      est.StackTrace.count newline + 2 = tenLines.count newline ∧
      (splitLines est.StackTrace).length + 2 = (splitLines tenLines).length) :=
  ⟨cutLines_newline_count.1 tenLines 1 2 (by decide) (by decide) (by decide),
    cutLines_newline_count.2 [] tenLines badError (by decide)⟩

/-- C11: `cutLines` never lengthens its input: on every text and every valid range its
result is at most as long as the text; so for every plain error and every snapshot of
at most `StackTraceSize` (4096) bytes the `StackTrace` that `New` stores has at most
4096 bytes. -/
theorem StackTrace_length_le :
    StackTraceSize = 4096 ∧
    (∀ (text : List Byte) (startLine endLine : Int), 0 ≤ startLine → startLine < endLine →
      ∃ r, cutLines text startLine endLine = .ok r ∧ r.length ≤ text.length) ∧
    (∀ (h : Heap) (raw : List Byte) (x : PlainError),
      raw.length ≤ StackTraceSize →
      ∃ (p : Ptr) (h1 : Heap) (est : ErrorStackTrace),
        New h raw (.plain x) = .ok (p, h1) ∧ h1.deref p = some est ∧
        est.StackTrace.length ≤ StackTraceSize) := by
  refine ⟨rfl, ?_, ?_⟩
  · intro text startLine endLine hs hse
    obtain ⟨s, rfl⟩ := Int.eq_ofNat_of_zero_le hs
    obtain ⟨e, rfl⟩ := Int.eq_ofNat_of_zero_le (show (0 : Int) ≤ endLine by omega)
    exact ⟨_, cutLines_eq text s e (by omega), length_cut_le text s e (by omega)⟩
  · intro h raw x hraw
    refine ⟨_, _, _, New_plain h raw x, deref_alloc h _, ?_⟩
    exact Nat.le_trans (length_cut_le raw 1 2 (by decide)) hraw

/-- Witness of C11: the ten lines `L0\n...L9\n` with `(1, 2)`, and `New` on the plain
error `bad` with those ten lines, 30 bytes, as snapshot. -/
theorem StackTrace_length_le_witness :
    (∃ r, cutLines tenLines 1 2 = .ok r ∧ r.length ≤ tenLines.length) ∧
    (∃ (p : Ptr) (h1 : Heap) (est : ErrorStackTrace),
      New [] tenLines (.plain badError) = .ok (p, h1) ∧ h1.deref p = some est ∧
      est.StackTrace.length ≤ StackTraceSize) :=
  ⟨StackTrace_length_le.2.1 tenLines 1 2 (by decide) (by decide),
    StackTrace_length_le.2.2 [] tenLines badError (by decide)⟩

/-- C12: `New` cannot fail: for every error (nil, a `*ErrorStackTrace` or plain), every
heap and every content of the stack snapshot, the empty one and one cut in the middle
of a line included, `New` returns and does not panic; its call of `cutLines` is on the
constants `(1, 2)`, which are a valid range, and returns. -/
theorem New_never_panics (h : Heap) (raw : List Byte) (err : GoError) :
    (∃ r, New h raw err = .ok r) ∧
    (∀ msg, New h raw err ≠ .error msg) ∧
    ¬ ((1 : Int) < 0 ∨ (2 : Int) < 0 ∨ (2 : Int) ≤ 1) ∧
    (∃ stack, cutLines raw 1 2 = .ok stack) := by
  have hok : ∃ r, New h raw err = .ok r := by
    cases err with
    | nil => exact ⟨_, rfl⟩
    | plain x => exact ⟨_, New_plain h raw x⟩
    | stackTrace p => exact ⟨_, rfl⟩
  refine ⟨hok, ?_, by decide, ⟨_, cutLines_one_two raw⟩⟩
  intro msg hmsg
  obtain ⟨r, hr⟩ := hok
  rw [hr] at hmsg
  exact absurd hmsg (by simp)

/-- C13: for every `0 ≤ startLine < endLine` and every text in which the two cut
points coincide (the text has exactly `startLine` newlines and ends with the last of
them, or `startLine = 0` and the text is empty), the loop leaves `start` at the end of
the text and `end` unset, and `cutLines` returns the text unchanged. -/
theorem cutLines_zero_length_gap (text : List Byte) (startLine endLine : Int)
    (hs : 0 ≤ startLine) (hse : startLine < endLine)
    (hgap : ((text.count newline : Int) = startLine ∧ text.getLast? = some newline) ∨
      (startLine = 0 ∧ text = [])) :
    cutLinesLoop startLine endLine text 0 (if startLine = 0 then 0 else -1) (-1) 0
      = ((text.length : Int), -1) ∧
    cutLines text startLine endLine = .ok text := by
  obtain ⟨s, rfl⟩ := Int.eq_ofNat_of_zero_le hs
  obtain ⟨e, rfl⟩ := Int.eq_ofNat_of_zero_le (show (0 : Int) ≤ endLine by omega)
  have hse2 : s < e := by omega
  have htake : takeLines s text = text ∧ text.count newline = s := by
    rcases hgap with ⟨hc, hl⟩ | ⟨h0, ht⟩
    · have hc2 : text.count newline = s := by omega
      cases s with
      | zero =>
        have hmem : newline ∈ text := List.mem_of_getLast?_eq_some hl
        have hpos : 0 < text.count newline := List.count_pos_iff.mpr hmem
        omega
      | succ k => exact ⟨takeLines_of_ends k text hc2 hl, hc2⟩
    · have h0' : s = 0 := by omega
      subst h0' ht
      exact ⟨by simp [takeLines], by simp⟩
  obtain ⟨ht, hc⟩ := htake
  constructor
  · rw [cutLinesLoop_top s e hse2 text]
    have h1 : s ≤ text.count newline := by omega
    have h2 : ¬ (e + 1 ≤ text.count newline) := by omega
    simp only [h1, h2, if_true, if_false, ht]
  · rw [cutLines_eq text s e hse2, ht, dropLines_of_count_lt (e + 1) text (by omega)]
    simp

/-- Witness of C13: the two lines `L0\nL1\n` with `(2, 3)`, and the empty text with
`(0, 1)`. -/
theorem cutLines_zero_length_gap_witness :
    cutLines twoLines 2 3 = .ok twoLines ∧ cutLines [] 0 1 = .ok [] :=
  ⟨(cutLines_zero_length_gap twoLines 2 3 (by decide) (by decide)
      (Or.inl ⟨by decide, by decide⟩)).2,
    (cutLines_zero_length_gap [] 0 1 (by decide) (by decide) (Or.inr ⟨rfl, rfl⟩)).2⟩

/-- C14: for every `0 ≤ startLine < endLine`, `cutLines` of the empty text is the empty
text. -/
theorem cutLines_empty (startLine endLine : Int)
    (hs : 0 ≤ startLine) (hse : startLine < endLine) :
    cutLines [] startLine endLine = .ok [] := by
  rw [cutLines_eq_int [] startLine endLine hs hse]
  have h1 : ∀ k, takeLines k [] = [] := fun k => by cases k <;> simp [takeLines]
  have h2 : ∀ k, dropLines k [] = [] := fun k => by cases k <;> simp [dropLines]
  rw [h1, h2]
  rfl

/-- Witness of C14: the ranges `(0, 1)` and `(1, 2)`. -/
theorem cutLines_empty_witness :
    cutLines [] 0 1 = .ok [] ∧ cutLines [] 1 2 = .ok [] :=
  ⟨cutLines_empty 0 1 (by decide) (by decide), cutLines_empty 1 2 (by decide) (by decide)⟩

/-- C15: for every text and every `0 ≤ startLine < endLine` the text is `a ++ b ++ c`
and `cutLines` returns `a ++ c`, where `a` is empty or ends with a newline, and `b` is
empty or ends with a newline or `c` is empty; the lines of the result are the first
`startLine` lines of the text and its lines after line `endLine`, so each of them is a
line of the text; and when the text ends with a newline, the result is empty or ends
with a newline. -/
theorem cutLines_splices_at_line_ends (text : List Byte) (startLine endLine : Int)
    (hs : 0 ≤ startLine) (hse : startLine < endLine) :
    ∃ a b c r, text = a ++ b ++ c ∧ cutLines text startLine endLine = .ok r ∧ r = a ++ c ∧
      (a = [] ∨ a.getLast? = some newline) ∧
      (b = [] ∨ b.getLast? = some newline ∨ c = []) ∧
      splitLines r = (splitLines text).take startLine.toNat
        ++ (splitLines text).drop (endLine.toNat + 1) ∧
      (∀ l ∈ splitLines r, l ∈ splitLines text) ∧
      (text.getLast? = some newline → r = [] ∨ r.getLast? = some newline) := by
  obtain ⟨s, rfl⟩ := Int.eq_ofNat_of_zero_le hs
  obtain ⟨e, rfl⟩ := Int.eq_ofNat_of_zero_le (show (0 : Int) ≤ endLine by omega)
  have hse2 : s < e := by omega
  have hcut := cutLines_eq text s e hse2
  have hlines := splitLines_cut text s e (by omega)
  have hmem : ∀ l ∈ splitLines (takeLines s text ++ dropLines (e + 1) text),
      l ∈ splitLines text := by
    intro l hl
    rw [hlines, List.mem_append] at hl
    rcases hl with hl | hl
    · exact List.mem_of_mem_take hl
    · exact List.mem_of_mem_drop hl
  by_cases hcnt : s ≤ text.count newline
  · refine ⟨takeLines s text, takeLines (e + 1 - s) (dropLines s text), dropLines (e + 1) text,
      takeLines s text ++ dropLines (e + 1) text, takeLines_mid_dropLines text s e (by omega),
      hcut, rfl, ?_, ?_, by simpa using hlines, hmem, getLast?_cut text s e⟩
    · cases s with
      | zero => exact Or.inl (by simp [takeLines])
      | succ k => exact Or.inr (getLast?_takeLines k text hcnt)
    · by_cases he : e + 1 ≤ text.count newline
      · obtain ⟨k, hk⟩ : ∃ k, e + 1 - s = k + 1 := ⟨e - s, by omega⟩
        rw [hk]
        exact Or.inr (Or.inl (getLast?_takeLines k (dropLines s text)
          (by rw [count_dropLines]; omega)))
      · exact Or.inr (Or.inr (dropLines_of_count_lt (e + 1) text (by omega)))
  · have ht : takeLines s text ++ dropLines (e + 1) text = text := by
      rw [takeLines_of_count_lt s text (by omega),
        dropLines_of_count_lt (e + 1) text (by omega), List.append_nil]
    refine ⟨[], [], text, takeLines s text ++ dropLines (e + 1) text, rfl, hcut,
      by simpa using ht, Or.inl rfl, Or.inl rfl, by simpa using hlines, hmem,
      getLast?_cut text s e⟩

/-- Witness of C15: the ten lines `L0\n...L9\n` with `(1, 2)`. -/
theorem cutLines_splices_at_line_ends_witness :
    ∃ a b c r, tenLines = a ++ b ++ c ∧ cutLines tenLines 1 2 = .ok r ∧ r = a ++ c ∧
      (a = [] ∨ a.getLast? = some newline) ∧
      (b = [] ∨ b.getLast? = some newline ∨ c = []) ∧
      splitLines r = (splitLines tenLines).take (1 : Int).toNat
        ++ (splitLines tenLines).drop ((2 : Int).toNat + 1) ∧
      (∀ l ∈ splitLines r, l ∈ splitLines tenLines) ∧
      (tenLines.getLast? = some newline → r = [] ∨ r.getLast? = some newline) :=
  cutLines_splices_at_line_ends tenLines 1 2 (by decide) (by decide)

/-- C16: when `New` constructs a wrapper, its `Err` is the error given and is not a
`*ErrorStackTrace`; otherwise `New` allocates nothing.  So `New` keeps a heap free of
wrappers of wrappers, and from a plain error any chain of calls of `New` ends with the
one wrapper of the first call, whose `Err` is the plain error itself. -/
theorem New_no_nested_wrapping :
    (∀ (h : Heap) (raw : List Byte) (err : GoError) (r : Ptr × Heap),
      New h raw err = .ok r →
      r.2 = h ∨ ∃ est, r.2 = h ++ [est] ∧ r.2.deref r.1 = some est ∧ est.Err = err ∧
        ∀ q, est.Err ≠ .stackTrace q) ∧
    (∀ (h : Heap) (raw : List Byte) (err : GoError) (r : Ptr × Heap),
      New h raw err = .ok r →
      (∀ est ∈ h, ∀ q, est.Err ≠ .stackTrace q) →
      ∀ est ∈ r.2, ∀ q, est.Err ≠ .stackTrace q) ∧
    (∀ (h : Heap) (s1 : List Byte) (x : PlainError)
      (snapshots : List (List Byte)),
      ∃ r est, New h s1 (.plain x) = .ok r ∧ NewChain r snapshots = .ok r ∧
        r.2.deref r.1 = some est ∧ est.Err = .plain x) := by
  have hcases : ∀ (h : Heap) (raw : List Byte) (err : GoError) (r : Ptr × Heap),
      New h raw err = .ok r →
      r.2 = h ∨ ∃ est, r.2 = h ++ [est] ∧ r.2.deref r.1 = some est ∧ est.Err = err ∧
        ∀ q, est.Err ≠ .stackTrace q := by
    intro h raw err r hr
    cases err with
    | nil =>
      have : r = (0, h) := by
        have h2 : New h raw .nil = .ok (0, h) := rfl
        rw [h2] at hr
        exact (Except.ok.inj hr).symm
      exact Or.inl (by rw [this])
    | stackTrace p =>
      have : r = (p, h) := by
        have h2 : New h raw (.stackTrace p) = .ok (p, h) := rfl
        rw [h2] at hr
        exact (Except.ok.inj hr).symm
      exact Or.inl (by rw [this])
    | plain x =>
      rw [New_plain] at hr
      have hr2 := (Except.ok.inj hr).symm
      subst hr2
      exact Or.inr ⟨_, rfl, deref_alloc h _, rfl, fun q hq => by simp at hq⟩
  refine ⟨hcases, ?_, ?_⟩
  · intro h raw err r hr hinv est hest q
    rcases hcases h raw err r hr with hsame | ⟨est2, hheap, _, _, hno⟩
    · rw [hsame] at hest
      exact hinv est hest q
    · rw [hheap, List.mem_append, List.mem_singleton] at hest
      rcases hest with hest | hest
      · exact hinv est hest q
      · rw [hest]
        exact hno q
  · intro h s1 x snapshots
    exact ⟨_, _, New_plain h s1 x, NewChain_ok snapshots _, deref_alloc h _, rfl⟩

/-- Witness of C16: `New` on the plain error `bad`, on the empty heap, with the ten
lines `L0\n...L9\n` as snapshot. -/
theorem New_no_nested_wrapping_witness :
    (([{ Err := .plain badError, StackTrace := tenLinesCut }] : Heap) = []
      ∨ ∃ est, ([{ Err := .plain badError, StackTrace := tenLinesCut }] : Heap) = [] ++ [est] ∧
        Heap.deref [{ Err := .plain badError, StackTrace := tenLinesCut }] 1 = some est ∧
        est.Err = .plain badError ∧ ∀ q, est.Err ≠ .stackTrace q) ∧
    (∀ est ∈ ([{ Err := .plain badError, StackTrace := tenLinesCut }] : Heap),
      ∀ q, est.Err ≠ .stackTrace q) :=
  ⟨New_no_nested_wrapping.1 [] tenLines (.plain badError)
      (1, [{ Err := .plain badError, StackTrace := tenLinesCut }]) rfl,
    New_no_nested_wrapping.2.1 [] tenLines (.plain badError)
      (1, [{ Err := .plain badError, StackTrace := tenLinesCut }]) rfl (by simp)⟩

/-- C17: for every `startLine ≥ 1`, every `endLine > startLine` and every text with
fewer than `startLine` newlines, `cutLines` returns the text unchanged; so `New` stores
a snapshot that has no newline as it is. -/
theorem cutLines_start_not_reached :
    (∀ (text : List Byte) (startLine endLine : Int), 1 ≤ startLine → startLine < endLine →
      (text.count newline : Int) < startLine →
      cutLines text startLine endLine = .ok text) ∧
    (∀ (h : Heap) (raw : List Byte) (x : PlainError), raw.count newline = 0 →
      ∃ (p : Ptr) (h1 : Heap) (est : ErrorStackTrace),
        New h raw (.plain x) = .ok (p, h1) ∧ h1.deref p = some est ∧
        est.StackTrace = raw) := by
  have hcut : ∀ (text : List Byte) (s e : Nat), s < e → text.count newline < s →
      takeLines s text ++ dropLines (e + 1) text = text := by
    intro text s e hse hcnt
    rw [takeLines_of_count_lt s text hcnt, dropLines_of_count_lt (e + 1) text (by omega),
      List.append_nil]
  constructor
  · intro text startLine endLine hs hse hcnt
    obtain ⟨s, rfl⟩ := Int.eq_ofNat_of_zero_le (show (0 : Int) ≤ startLine by omega)
    obtain ⟨e, rfl⟩ := Int.eq_ofNat_of_zero_le (show (0 : Int) ≤ endLine by omega)
    rw [cutLines_eq text s e (by omega), hcut text s e (by omega) (by omega)]
  · intro h raw x hraw
    refine ⟨_, _, _, New_plain h raw x, deref_alloc h _, ?_⟩
    exact hcut raw 1 2 (by decide) (by omega)

/-- Witness of C17: the text `bad`, which has no newline, with `(1, 2)`, and `New` on
the plain error `bad` with that text as snapshot. -/
theorem cutLines_start_not_reached_witness :
    cutLines bad 1 2 = .ok bad ∧
    (∃ (p : Ptr) (h1 : Heap) (est : ErrorStackTrace),
      New [] bad (.plain badError) = .ok (p, h1) ∧ h1.deref p = some est ∧
      est.StackTrace = bad) :=
  ⟨cutLines_start_not_reached.1 bad 1 2 (by decide) (by decide) (by decide),
    cutLines_start_not_reached.2 [] bad badError (by decide)⟩

end Errstack
